import Mathlib

/-!
# Verification of the CLVM typed value codec

A shallow embedding of the `clvm-traits` codec and its `chia-wallet` clients
(`Proof`, `LineageProof`, `EveProof`), together with theorems checking the
natural-language specification against it.

Nodes are modelled as immutable trees (an atom is a raw byte string, a pair
holds two child nodes); the arena is external and append-only, so structural
trees are a faithful model of arena-held nodes.  Encoders return
`Except ToClvmError Node`, mirroring the Rust `to_clvm` signature; decoders
return `Except FromClvmError α`.  Machine integers are modelled as `Nat`/`Int`
with explicit `% 2^(8*w)` where width matters.

The primitive codecs, framing strategies and enum dispatch are not present in
the repository sources (only their tests, documentation and callers are), so
they are modelled from the specification's words, pinned down by the golden
hex strings asserted by the in-repository tests.
-/

/-- A CLVM node: an atom (raw byte string, each entry a byte) or a pair. -/
inductive Node where
  | atom : List Nat → Node
  | pair : Node → Node → Node
deriving DecidableEq, Repr

/-- The canonical nil node: the empty atom. -/
def nilNode : Node := Node.atom []

/-- Encoding errors (the Rust `ToClvmError`); carried for signature fidelity,
the modelled encoders never produce one. -/
inductive ToClvmError where
  | custom : String → ToClvmError
deriving DecidableEq, Repr

/-- Decoding errors, as the specification's error taxonomy lists them. -/
inductive FromClvmError where
  | expectedAtom
  | expectedPair
  | expectedNil
  | wrongAtomLength
  | wrongDiscriminant
  | invalidCurryForm
  | noMatchingVariant
  | custom : String → FromClvmError
deriving DecidableEq, Repr

deriving instance DecidableEq for Except

@[simp] theorem exceptBind_ok (a : α) (f : α → Except ε β) :
    (Except.ok a : Except ε α) >>= f = f a := rfl

@[simp] theorem exceptBind_error (e : ε) (f : α → Except ε β) :
    (Except.error e : Except ε α) >>= f = Except.error e := rfl

/-! ## Big-endian two's-complement integer atoms -/

/-- The `w`-byte big-endian representation of `m % 2^(8*w)`. -/
def natToBEBytes : Nat → Nat → List Nat
  | 0, _ => []
  | w + 1, m => natToBEBytes w (m / 256) ++ [m % 256]

/-- Big-endian value of a byte string. -/
def beNat (l : List Nat) : Nat :=
  l.foldl (fun acc b => acc * 256 + b) 0

/-- Two's-complement value of a byte string: its big-endian value, minus
`2^(8*len)` when the high bit of the first byte is set. -/
def tcValue (l : List Nat) : Int :=
  (beNat l : Int) - (if 128 ≤ l.headD 0 then (2 ^ (8 * l.length) : Int) else 0)

/-- Strip redundant leading `0x00`/`0xff` bytes of a two's-complement byte
string (a leading byte is redundant exactly when it is the sign extension of
the remainder). -/
def stripTC : List Nat → List Nat
  | [] => []
  | b :: rest =>
    if b = 0 then
      match rest with
      | [] => []
      | b₂ :: _ => if b₂ < 128 then stripTC rest else b :: rest
    else if b = 255 then
      match rest with
      | [] => [255]
      | b₂ :: _ => if 128 ≤ b₂ then stripTC rest else b :: rest
    else b :: rest

/-- Whether the first byte is a redundant sign-extension byte. -/
def redundantHead : List Nat → Bool
  | 0 :: [] => true
  | 0 :: b :: _ => decide (b < 128)
  | 255 :: b :: _ => decide (128 ≤ b)
  | _ => false

theorem beNat_foldl (l : List Nat) (acc : Nat) :
    l.foldl (fun acc b => acc * 256 + b) acc = acc * 2 ^ (8 * l.length) + beNat l := by
  induction l generalizing acc with
  | nil => simp [beNat]
  | cons b t ih =>
    simp only [List.foldl_cons, beNat, List.length_cons]
    rw [ih (acc * 256 + b), ih (0 * 256 + b)]
    have h8 : 8 * (t.length + 1) = 8 * t.length + 8 := by ring
    rw [h8, pow_add]
    ring

theorem beNat_cons (b : Nat) (t : List Nat) :
    beNat (b :: t) = b * 2 ^ (8 * t.length) + beNat t := by
  have h := beNat_foldl t b
  simpa [beNat] using h

theorem beNat_nil : beNat [] = 0 := rfl

theorem tcValue_cons_zero (b₂ : Nat) (t : List Nat) (h : b₂ < 128) :
    tcValue (0 :: b₂ :: t) = tcValue (b₂ :: t) := by
  simp only [tcValue, List.headD_cons, List.length_cons]
  rw [if_neg (by omega : ¬ (128 : Nat) ≤ 0), if_neg (by omega : ¬ (128 : Nat) ≤ b₂)]
  rw [beNat_cons 0 (b₂ :: t)]
  simp

theorem tcValue_cons_ff (b₂ : Nat) (t : List Nat) (h : 128 ≤ b₂) :
    tcValue (255 :: b₂ :: t) = tcValue (b₂ :: t) := by
  simp only [tcValue, List.headD_cons, List.length_cons]
  rw [if_pos (by omega : (128 : Nat) ≤ 255), if_pos h]
  rw [beNat_cons 255 (b₂ :: t)]
  simp only [List.length_cons]
  have h1 : 8 * (t.length + 1) = 8 * t.length + 8 := by ring
  have h2 : 8 * (t.length + 1 + 1) = 8 * t.length + 8 + 8 := by ring
  rw [h1, h2]
  push_cast
  rw [pow_add, pow_add]
  ring

theorem stripTC_zero_lt (b₂ : Nat) (t : List Nat) (h : b₂ < 128) :
    stripTC (0 :: b₂ :: t) = stripTC (b₂ :: t) := by
  simp [stripTC, h]

theorem stripTC_zero_ge (b₂ : Nat) (t : List Nat) (h : ¬ b₂ < 128) :
    stripTC (0 :: b₂ :: t) = 0 :: b₂ :: t := by
  simp [stripTC, h]

theorem stripTC_ff_ge (b₂ : Nat) (t : List Nat) (h : 128 ≤ b₂) :
    stripTC (255 :: b₂ :: t) = stripTC (b₂ :: t) := by
  simp [stripTC, h]

theorem stripTC_ff_lt (b₂ : Nat) (t : List Nat) (h : ¬ 128 ≤ b₂) :
    stripTC (255 :: b₂ :: t) = 255 :: b₂ :: t := by
  simp [stripTC, h]

theorem stripTC_other (b : Nat) (t : List Nat) (h0 : ¬ b = 0) (h255 : ¬ b = 255) :
    stripTC (b :: t) = b :: t := by
  unfold stripTC
  simp [h0, h255]

/-- Stripping sign-extension bytes preserves the two's-complement value. -/
theorem tcValue_stripTC (l : List Nat) : tcValue (stripTC l) = tcValue l := by
  induction l using stripTC.induct with
  | case1 => rfl
  | case2 => decide
  | case3 b₂ t h ih => rw [stripTC_zero_lt b₂ t h, ih, tcValue_cons_zero b₂ t h]
  | case4 b₂ t h => rw [stripTC_zero_ge b₂ t h]
  | case5 => decide
  | case6 b₂ t h _ ih => rw [stripTC_ff_ge b₂ t h, ih, tcValue_cons_ff b₂ t h]
  | case7 b₂ t h _ => rw [stripTC_ff_lt b₂ t h]
  | case8 b t h0 h255 => rw [stripTC_other b t h0 h255]

theorem length_stripTC_le (l : List Nat) : (stripTC l).length ≤ l.length := by
  induction l using stripTC.induct with
  | case1 => simp [stripTC]
  | case2 => decide
  | case3 b₂ t h ih =>
    rw [stripTC_zero_lt b₂ t h]
    exact Nat.le_succ_of_le ih
  | case4 b₂ t h => rw [stripTC_zero_ge b₂ t h]
  | case5 => decide
  | case6 b₂ t h _ ih =>
    rw [stripTC_ff_ge b₂ t h]
    exact Nat.le_succ_of_le ih
  | case7 b₂ t h _ => rw [stripTC_ff_lt b₂ t h]
  | case8 b t h0 h255 => rw [stripTC_other b t h0 h255]

/-- The stripped form never starts with a redundant sign-extension byte. -/
theorem redundantHead_stripTC (l : List Nat) : redundantHead (stripTC l) = false := by
  induction l using stripTC.induct with
  | case1 => rfl
  | case2 => decide
  | case3 b₂ t h ih => rw [stripTC_zero_lt b₂ t h]; exact ih
  | case4 b₂ t h =>
    rw [stripTC_zero_ge b₂ t h]
    simp [redundantHead, h]
  | case5 => decide
  | case6 b₂ t h _ ih => rw [stripTC_ff_ge b₂ t h]; exact ih
  | case7 b₂ t h _ =>
    rw [stripTC_ff_lt b₂ t h]
    simp [redundantHead, h]
  | case8 b t h0 h255 =>
    rw [stripTC_other b t h0 h255]
    cases t with
    | nil =>
      unfold redundantHead
      simp [h0, h255]
    | cons b₂ t' =>
      unfold redundantHead
      simp [h0, h255]

theorem length_natToBEBytes (w m : Nat) : (natToBEBytes w m).length = w := by
  induction w generalizing m with
  | zero => rfl
  | succ v ih => simp [natToBEBytes, ih]

theorem beNat_append_singleton (l : List Nat) (b : Nat) :
    beNat (l ++ [b]) = beNat l * 256 + b := by
  simp [beNat, List.foldl_append]

theorem pow256 (k : Nat) : (256 : Nat) ^ k = 2 ^ (8 * k) := by
  rw [Nat.pow_mul]

theorem beNat_natToBEBytes (w m : Nat) :
    beNat (natToBEBytes w m) = m % 2 ^ (8 * w) := by
  induction w generalizing m with
  | zero => simp [natToBEBytes, beNat, Nat.mod_one]
  | succ v ih =>
    rw [natToBEBytes, beNat_append_singleton, ih]
    have hsplit : m % (256 * 2 ^ (8 * v)) = 256 * (m / 256 % 2 ^ (8 * v)) + m % 256 := by
      have hd := Nat.mod_mul_right_div_self m 256 (2 ^ (8 * v))
      have hm := Nat.mod_mul_right_mod m 256 (2 ^ (8 * v))
      have hdm := Nat.div_add_mod (m % (256 * 2 ^ (8 * v))) 256
      omega
    have hpow : 2 ^ (8 * (v + 1)) = 256 * 2 ^ (8 * v) := by
      have : 8 * (v + 1) = 8 + 8 * v := by ring
      rw [this, pow_add]
      norm_num
    rw [hpow, hsplit]
    ring

theorem headD_append_of_ne_nil (l l' : List Nat) (d : Nat) (h : l ≠ []) :
    (l ++ l').headD d = l.headD d := by
  cases l with
  | nil => exact absurd rfl h
  | cons a t => rfl

theorem headD_natToBEBytes (v m : Nat) :
    (natToBEBytes (v + 1) m).headD 0 = m / 256 ^ v % 256 := by
  induction v generalizing m with
  | zero => simp [natToBEBytes]
  | succ u ih =>
    rw [natToBEBytes]
    rw [headD_append_of_ne_nil _ _ _ (by
      intro hnil
      have := length_natToBEBytes (u + 1) (m / 256)
      rw [hnil] at this
      simp at this)]
    rw [ih (m / 256), Nat.div_div_eq_div_mul]
    have : 256 * 256 ^ u = 256 ^ (u + 1) := by ring
    rw [this]

/-- The sign bit of the `w`-byte big-endian form is set exactly when the value
mod `2^(8*w)` reaches `2^(8*w - 1)`. -/
theorem hi_natToBEBytes (v m : Nat) :
    128 ≤ (natToBEBytes (v + 1) m).headD 0 ↔ 2 ^ (8 * v + 7) ≤ m % 2 ^ (8 * v + 8) := by
  rw [headD_natToBEBytes]
  have hdiv : m / 256 ^ v % 256 = m % 256 ^ (v + 1) / 256 ^ v := by
    have := Nat.mod_mul_right_div_self m (256 ^ v) 256
    rw [← pow_succ] at this
    omega
  rw [hdiv]
  have hpos : 0 < (256 : Nat) ^ v := Nat.pos_pow_of_pos v (by norm_num)
  rw [Nat.le_div_iff_mul_le hpos]
  have h1 : 128 * 256 ^ v = 2 ^ (8 * v + 7) := by
    rw [pow256]
    have : (128 : Nat) = 2 ^ 7 := by norm_num
    rw [this, ← pow_add]
    ring_nf
  have h2 : (256 : Nat) ^ (v + 1) = 2 ^ (8 * v + 8) := by
    rw [pow256]
    have : 8 * (v + 1) = 8 * v + 8 := by ring
    rw [this]
  rw [h1, h2]

/-- Two's-complement value of the `(v+1)`-byte big-endian form of `m`. -/
theorem tcValue_natToBEBytes (v m : Nat) :
    tcValue (natToBEBytes (v + 1) m) =
      ((m % 2 ^ (8 * v + 8) : Nat) : Int) -
        (if 2 ^ (8 * v + 7) ≤ m % 2 ^ (8 * v + 8) then (2 ^ (8 * v + 8) : Int) else 0) := by
  unfold tcValue
  rw [beNat_natToBEBytes, length_natToBEBytes]
  have hexp : 8 * (v + 1) = 8 * v + 8 := by ring
  rw [hexp]
  by_cases h : 2 ^ (8 * v + 7) ≤ m % 2 ^ (8 * v + 8)
  · rw [if_pos ((hi_natToBEBytes v m).mpr h), if_pos h]
  · rw [if_neg (fun hc => h ((hi_natToBEBytes v m).mp hc)), if_neg h]

/-! ## Primitive codecs

Modelled from the spec: the integer, boolean, byte-string, fixed-size
byte-array, optional and sequence primitive codecs of `clvm-traits` are not
part of the repository sources (only their tests and callers are), so they
are defined here following §3, §4.1 and §7 of the specification, pinned by
the golden hex strings of the in-repository tests. -/

/-- The atom bytes encoding an unsigned `w`-byte integer: the minimal
big-endian two's-complement form of `n`. -/
def uintBytes (w n : Nat) : List Nat := stripTC (natToBEBytes w n)

/-- Modelled from the spec: `to_clvm` for a `w`-byte unsigned integer. -/
def uintToClvm (w n : Nat) : Except ToClvmError Node := .ok (.atom (uintBytes w n))

/-- The atom bytes encoding a signed `w`-byte integer. -/
def sintBytes (w : Nat) (m : Int) : List Nat :=
  stripTC (natToBEBytes w (m % (2 ^ (8 * w) : Int)).toNat)

/-- Modelled from the spec: `to_clvm` for a `w`-byte signed integer. -/
def sintToClvm (w : Nat) (m : Int) : Except ToClvmError Node := .ok (.atom (sintBytes w m))

/-- Modelled from the spec: `from_clvm` for a `w`-byte unsigned integer;
the atom is re-interpreted as two's complement and widened to the target
width, and an atom longer than the width fails with `WrongAtomLength`. -/
def uintFromClvm (w : Nat) : Node → Except FromClvmError Nat
  | .atom bs =>
    if bs.length ≤ w then .ok (tcValue bs % (2 ^ (8 * w) : Int)).toNat
    else .error .wrongAtomLength
  | .pair _ _ => .error .expectedAtom

/-- Modelled from the spec: `from_clvm` for a `w`-byte signed integer. -/
def sintFromClvm (w : Nat) : Node → Except FromClvmError Int
  | .atom bs =>
    if bs.length ≤ w then .ok (tcValue bs)
    else .error .wrongAtomLength
  | .pair _ _ => .error .expectedAtom

theorem length_uintBytes_le (w n : Nat) : (uintBytes w n).length ≤ w := by
  unfold uintBytes
  calc (stripTC (natToBEBytes w n)).length
      ≤ (natToBEBytes w n).length := length_stripTC_le _
    _ = w := length_natToBEBytes w n

theorem length_sintBytes_le (w : Nat) (m : Int) : (sintBytes w m).length ≤ w := by
  unfold sintBytes
  calc (stripTC _).length ≤ (natToBEBytes w _).length := length_stripTC_le _
    _ = w := length_natToBEBytes w _

/-- Unsigned round trip: decoding the minimal atom of an in-range `n`
recovers `n`. -/
theorem uintFromClvm_uintBytes (w n : Nat) (hw : 0 < w) (hn : n < 2 ^ (8 * w)) :
    uintFromClvm w (.atom (uintBytes w n)) = .ok n := by
  obtain ⟨v, rfl⟩ : ∃ v, w = v + 1 := ⟨w - 1, by omega⟩
  simp only [uintFromClvm]
  rw [if_pos (length_uintBytes_le _ n)]
  unfold uintBytes
  rw [tcValue_stripTC, tcValue_natToBEBytes]
  have hexp : 8 * (v + 1) = 8 * v + 8 := by ring
  rw [hexp] at hn ⊢
  rw [Nat.mod_eq_of_lt hn]
  by_cases h : 2 ^ (8 * v + 7) ≤ n
  · rw [if_pos h]
    have hsub : ((n : Int) - 2 ^ (8 * v + 8)) % 2 ^ (8 * v + 8) = (n : Int) % 2 ^ (8 * v + 8) := by
      have := Int.add_mul_emod_self_left (a := (n : Int)) (b := (2 : Int) ^ (8 * v + 8)) (c := -1)
      simpa using this
    rw [hsub, Int.emod_eq_of_lt (by positivity) (by push_cast; exact_mod_cast hn)]
    simp
  · rw [if_neg h]
    rw [sub_zero, Int.emod_eq_of_lt (by positivity) (by push_cast; exact_mod_cast hn)]
    simp

/-- Signed round trip: decoding the minimal atom of an in-range `m`
recovers `m`. -/
theorem sintFromClvm_sintBytes (w : Nat) (m : Int) (hw : 0 < w)
    (h1 : -(2 ^ (8 * w - 1)) ≤ m) (h2 : m < 2 ^ (8 * w - 1)) :
    sintFromClvm w (.atom (sintBytes w m)) = .ok m := by
  obtain ⟨v, rfl⟩ : ∃ v, w = v + 1 := ⟨w - 1, by omega⟩
  have hexp1 : 8 * (v + 1) - 1 = 8 * v + 7 := by omega
  have hexp : 8 * (v + 1) = 8 * v + 8 := by ring
  rw [hexp1] at h1 h2
  simp only [sintFromClvm]
  rw [if_pos (length_sintBytes_le _ m)]
  unfold sintBytes
  rw [tcValue_stripTC, tcValue_natToBEBytes, hexp]
  have hmodpos : (0 : Int) < 2 ^ (8 * v + 8) := by positivity
  set M : Nat := (m % (2 ^ (8 * v + 8) : Int)).toNat with hM
  have hMcast : (M : Int) = m % (2 ^ (8 * v + 8) : Int) := by
    rw [hM]
    exact Int.toNat_of_nonneg (Int.emod_nonneg m (by positivity))
  have hdouble : (2 : Int) ^ (8 * v + 8) = 2 * 2 ^ (8 * v + 7) := by
    rw [show 8 * v + 8 = (8 * v + 7) + 1 by ring, pow_succ]
    ring
  have hMlt : M < 2 ^ (8 * v + 8) := by
    have := Int.emod_lt_of_pos m hmodpos
    rw [← hMcast] at this
    exact_mod_cast this
  rw [Nat.mod_eq_of_lt hMlt]
  by_cases hneg : m < 0
  · have hval : m % (2 ^ (8 * v + 8) : Int) = m + 2 ^ (8 * v + 8) := by
      have hrw : m % (2 ^ (8 * v + 8) : Int) = (m + 2 ^ (8 * v + 8)) % 2 ^ (8 * v + 8) := by
        have := Int.add_mul_emod_self_left (a := m) (b := (2 : Int) ^ (8 * v + 8)) (c := 1)
        simpa using this.symm
      rw [hrw]
      refine Int.emod_eq_of_lt (by omega) (by omega)
    have hMval : (M : Int) = m + 2 ^ (8 * v + 8) := by rw [hMcast, hval]
    have hcond : 2 ^ (8 * v + 7) ≤ M := by
      have : (2 ^ (8 * v + 7) : Int) ≤ (M : Int) := by omega
      exact_mod_cast this
    rw [if_pos hcond]
    congr 1
    omega
  · push_neg at hneg
    have hval : m % (2 ^ (8 * v + 8) : Int) = m :=
      Int.emod_eq_of_lt hneg (by omega)
    have hMval : (M : Int) = m := by rw [hMcast, hval]
    have hcond : ¬ 2 ^ (8 * v + 7) ≤ M := by
      intro hc
      have : (2 ^ (8 * v + 7) : Int) ≤ (M : Int) := by exact_mod_cast hc
      omega
    rw [if_neg hcond, sub_zero, hMval]

/-- Modelled from the spec: boolean encode — `true` is the atom `0x01`,
`false` is the nil atom. -/
def boolToClvm : Bool → Except ToClvmError Node
  | false => .ok nilNode
  | true => .ok (.atom [1])

/-- Modelled from the spec: boolean decode accepts only the two exact atoms
nil and `0x01`; every other node yields a `Custom` error. -/
def boolFromClvm (n : Node) : Except FromClvmError Bool :=
  if n = nilNode then .ok false
  else if n = Node.atom [1] then .ok true
  else .error (.custom "expected boolean")

/-- Modelled from the spec: byte strings (`String`, `Vec<u8>`) encode by atom
identity. -/
def bytesToClvm (bs : List Nat) : Except ToClvmError Node := .ok (.atom bs)

/-- Modelled from the spec: byte-string decode extracts the atom bytes. -/
def bytesFromClvm : Node → Except FromClvmError (List Nat)
  | .atom bs => .ok bs
  | .pair _ _ => .error .expectedAtom

/-- Modelled from the spec: a fixed-size byte array of declared size `n`
encodes by atom identity. -/
def bytesNToClvm (bs : List Nat) : Except ToClvmError Node := .ok (.atom bs)

/-- Modelled from the spec: fixed-size byte-array decode succeeds only when
the node is an atom of length exactly `n`, failing `WrongAtomLength`
otherwise. -/
def bytesNFromClvm (n : Nat) : Node → Except FromClvmError (List Nat)
  | .atom bs => if bs.length = n then .ok bs else .error .wrongAtomLength
  | .pair _ _ => .error .wrongAtomLength

/-- Modelled from the spec: `Optional` encode — `None` is the nil atom,
`Some v` is `v`'s own encoding. -/
def optionToClvm (enc : α → Except ToClvmError Node) : Option α → Except ToClvmError Node
  | none => .ok nilNode
  | some v => enc v

/-- Modelled from the spec: `Optional` decode — nil decodes to `None`,
anything else is attempted as the payload. -/
def optionFromClvm (dec : Node → Except FromClvmError α) (n : Node) :
    Except FromClvmError (Option α) :=
  if n = nilNode then .ok none else (dec n).map some

/-- Modelled from the spec: ordered sequences encode as proper lists
(nested pairs terminated by nil). -/
def seqToClvm (enc : α → Except ToClvmError Node) : List α → Except ToClvmError Node
  | [] => .ok nilNode
  | x :: xs => do
    let fx ← enc x
    let rest ← seqToClvm enc xs
    pure (.pair fx rest)

/-- Modelled from the spec: sequence decode peels pairs until the nil
terminator; a non-nil atom terminator is `ExpectedNil`. -/
def seqFromClvm (dec : Node → Except FromClvmError α) : Node → Except FromClvmError (List α)
  | .atom bs => if bs = [] then .ok [] else .error .expectedNil
  | .pair x rest => do
    let v ← dec x
    let vs ← seqFromClvm dec rest
    pure (v :: vs)

/-! ## Node serialization

Modelled from the spec: the wire format is produced by the arena's external
serializer (`node_to_bytes`); its behaviour on the sizes that occur here is
pinned by the golden hex strings of the in-repository tests: the empty atom
serializes to `0x80`, a one-byte atom below `0x80` to that byte itself,
short atoms to a `0x80 + length` prefix followed by the bytes, and a pair to
`0xff` followed by the serializations of its two children. -/
def nodeToBytes : Node → List Nat
  | .atom bs =>
    if bs = [] then [0x80]
    else if bs.length = 1 ∧ bs.headD 0 < 0x80 then bs
    else if bs.length ≤ 0x3f then (0x80 + bs.length) :: bs
    else if bs.length ≤ 0x1fff then (0xc0 + bs.length / 0x100) :: (bs.length % 0x100) :: bs
    else if bs.length ≤ 0xfffff then
      (0xe0 + bs.length / 0x10000) :: (bs.length / 0x100 % 0x100) :: (bs.length % 0x100) :: bs
    else (0xf0 + bs.length / 0x1000000) :: (bs.length / 0x10000 % 0x100) ::
      (bs.length / 0x100 % 0x100) :: (bs.length % 0x100) :: bs
  | .pair a b => 0xff :: (nodeToBytes a ++ nodeToBytes b)

/-! ## Representation strategies and concrete struct clients

The framing strategies (§4.2) applied to the concrete struct types of the
repository's tests: `TupleStruct`, `ListStruct` and `CurryStruct` each hold
`a: u64` and `b: i32`. -/

/-- The struct of `test_tuple`: two fields under `Tuple` framing. -/
structure TupleStruct where
  a : Nat
  b : Int
deriving DecidableEq, Repr

/-- The struct of `test_list`: two fields under `List` framing. -/
structure ListStruct where
  a : Nat
  b : Int
deriving DecidableEq, Repr

/-- The struct of `test_curry`: two fields under `Curry` framing. -/
structure CurryStruct where
  a : Nat
  b : Int
deriving DecidableEq, Repr

/-- Modelled from the spec: `Tuple` framing — right-fold pairing with the
last field unwrapped. -/
def TupleStruct.toClvm (v : TupleStruct) : Except ToClvmError Node := do
  let fa ← uintToClvm 8 v.a
  let fb ← sintToClvm 4 v.b
  pure (.pair fa fb)

/-- Modelled from the spec: `Tuple` decode peels pairs from the front, then
decodes the remaining node directly as the last field. -/
def TupleStruct.fromClvm : Node → Except FromClvmError TupleStruct
  | .pair f rest => do
    let a ← uintFromClvm 8 f
    let b ← sintFromClvm 4 rest
    pure ⟨a, b⟩
  | .atom _ => .error .expectedPair

/-- Modelled from the spec: `List` framing - like `Tuple` but with an
explicit nil terminator after the last field. -/
def ListStruct.toClvm (v : ListStruct) : Except ToClvmError Node := do
  let fa ← uintToClvm 8 v.a
  let fb ← sintToClvm 4 v.b
  pure (.pair fa (.pair fb nilNode))

/-- Modelled from the spec: `List` decode peels one pair per field and
requires the final remainder to be exactly the nil atom. -/
def ListStruct.fromClvm : Node → Except FromClvmError ListStruct
  | .pair f rest => do
    let a ← uintFromClvm 8 f
    match rest with
    | .pair f₂ rest₂ => do
      let b ← sintFromClvm 4 f₂
      if rest₂ = nilNode then pure ⟨a, b⟩ else .error .expectedNil
    | .atom _ => .error .expectedPair
  | .atom _ => .error .expectedPair

/-- The quote operator atom `1` of the curry form. -/
def qAtom : Node := .atom [1]

/-- The cons operator atom `4` of the curry form. -/
def cAtom : Node := .atom [4]

/-- The identity / environment-reference atom `1` terminating a curry chain. -/
def oneAtom : Node := .atom [1]

/-- One step of the curry wrapping as the repository's own doc comment and
golden test pin it: `(c (q . f) acc)`, i.e. the quoted field is the raw pair
`(quote . field)`. -/
def curryWrap (field acc : Node) : Node :=
  .pair cAtom (.pair (.pair qAtom field) (.pair acc nilNode))

/-- One step of the curry wrapping as claim C4 and §4.2 of the spec word it:
`pair(cons_op_atom, pair(pair(quote_op_atom, pair(fi, NIL)), pair(acc, NIL)))`,
i.e. the quoted field as a proper two-element list. Kept for comparison with
`curryWrap`; the golden test refutes this shape. -/
def curryWrapSpecWords (field acc : Node) : Node :=
  .pair cAtom (.pair (.pair qAtom (.pair field nilNode)) (.pair acc nilNode))

/-- Inverts one `curryWrap` step; any structural deviation is
`InvalidCurryForm`. -/
def curryUnwrap : Node → Except FromClvmError (Node × Node)
  | .pair c₁ (.pair (.pair q₁ f) (.pair acc (.atom tail))) =>
    if c₁ = cAtom ∧ q₁ = qAtom ∧ tail = [] then .ok (f, acc)
    else .error .invalidCurryForm
  | _ => .error .invalidCurryForm

/-- Modelled from the spec: `Curry` framing — built right-to-left from the
identity atom `1`, wrapping each field from last to first. -/
def CurryStruct.toClvm (v : CurryStruct) : Except ToClvmError Node := do
  let fa ← uintToClvm 8 v.a
  let fb ← sintToClvm 4 v.b
  pure (curryWrap fa (curryWrap fb oneAtom))

/-- Modelled from the spec: `Curry` decode inverts the nested operator shape
field by field and requires the final accumulator to be the identity atom
`1`. -/
def CurryStruct.fromClvm (n : Node) : Except FromClvmError CurryStruct := do
  let (f₁, acc₁) ← curryUnwrap n
  let (f₂, acc₂) ← curryUnwrap acc₁
  if acc₂ = oneAtom then do
    let a ← uintFromClvm 8 f₁
    let b ← sintFromClvm 4 f₂
    pure ⟨a, b⟩
  else .error .invalidCurryForm

/-! ## Enum dispatch clients

The three enums of the repository's tests: a tagged enum with default
discriminants, a tagged enum with explicit discriminants and a `u8`
representation, and an untagged enum with per-variant framing. -/

/-- The enum of `test_enum`: tagged, default `u8` discriminants 0, 1, 2 in
declaration order; `Tuple` representation. -/
inductive EnumDefault where
  | A : Int → EnumDefault
  | B : Int → EnumDefault
  | C : EnumDefault
deriving DecidableEq, Repr

/-- Modelled from the spec: tagged-enum encode is
`pair(discriminant_atom, variant_payload)`; a zero-field variant's payload is
nil; default discriminants are 0-based sequential in declaration order. -/
def EnumDefault.toClvm : EnumDefault → Except ToClvmError Node
  | .A x => do
    let d ← uintToClvm 1 0
    let p ← sintToClvm 4 x
    pure (.pair d p)
  | .B x => do
    let d ← uintToClvm 1 1
    let p ← sintToClvm 4 x
    pure (.pair d p)
  | .C => do
    let d ← uintToClvm 1 2
    pure (.pair d nilNode)

/-- Modelled from the spec: tagged-enum decode reads the discriminant atom at
the declared width, matches it against the variant table (`WrongDiscriminant`
otherwise), then decodes the payload with that variant's strategy. -/
def EnumDefault.fromClvm : Node → Except FromClvmError EnumDefault
  | .pair d p => do
    let disc ← uintFromClvm 1 d
    if disc = 0 then do
      let x ← sintFromClvm 4 p
      pure (.A x)
    else if disc = 1 then do
      let x ← sintFromClvm 4 p
      pure (.B x)
    else if disc = 2 then
      if p = nilNode then pure .C else .error .expectedNil
    else .error .wrongDiscriminant
  | .atom _ => .error .expectedPair

/-- The enum of `test_explicit_enum`: tagged, explicit `u8` discriminants
42, 34, 11. -/
inductive EnumExplicit where
  | A : Int → EnumExplicit
  | B : Int → EnumExplicit
  | C : EnumExplicit
deriving DecidableEq, Repr

/-- Modelled from the spec: explicit per-variant discriminant values replace
the defaults on encode. -/
def EnumExplicit.toClvm : EnumExplicit → Except ToClvmError Node
  | .A x => do
    let d ← uintToClvm 1 42
    let p ← sintToClvm 4 x
    pure (.pair d p)
  | .B x => do
    let d ← uintToClvm 1 34
    let p ← sintToClvm 4 x
    pure (.pair d p)
  | .C => do
    let d ← uintToClvm 1 11
    pure (.pair d nilNode)

/-- Modelled from the spec: explicit per-variant discriminant values replace
the defaults on decode. -/
def EnumExplicit.fromClvm : Node → Except FromClvmError EnumExplicit
  | .pair d p => do
    let disc ← uintFromClvm 1 d
    if disc = 42 then do
      let x ← sintFromClvm 4 p
      pure (.A x)
    else if disc = 34 then do
      let x ← sintFromClvm 4 p
      pure (.B x)
    else if disc = 11 then
      if p = nilNode then pure .C else .error .expectedNil
    else .error .wrongDiscriminant
  | .atom _ => .error .expectedPair

/-- The enum of `test_untagged_enum`: untagged; variant `A(i32)` under the
enum's `Tuple` default (a single field is the field itself), `B` under
`List` framing, `C` under `Curry` framing with a string field. -/
inductive EnumUntagged where
  | A : Int → EnumUntagged
  | B : Int → Int → EnumUntagged
  | C : List Nat → EnumUntagged
deriving DecidableEq, Repr

/-- Modelled from the spec: untagged-enum encode is each variant's own
payload encoding directly, with no discriminant. -/
def EnumUntagged.toClvm : EnumUntagged → Except ToClvmError Node
  | .A x => sintToClvm 4 x
  | .B x y => do
    let fx ← sintToClvm 4 x
    let fy ← sintToClvm 4 y
    pure (.pair fx (.pair fy nilNode))
  | .C s => do
    let fs ← bytesToClvm s
    pure (curryWrap fs oneAtom)

/-- Decoder for `EnumUntagged`'s `B` variant (2-field `List` framing). -/
def EnumUntagged.decodeB : Node → Except FromClvmError EnumUntagged
  | .pair f rest => do
    let x ← sintFromClvm 4 f
    match rest with
    | .pair f₂ rest₂ => do
      let y ← sintFromClvm 4 f₂
      if rest₂ = nilNode then pure (.B x y) else .error .expectedNil
    | .atom _ => .error .expectedPair
  | .atom _ => .error .expectedPair

/-- Decoder for `EnumUntagged`'s `C` variant (1-field `Curry` framing). -/
def EnumUntagged.decodeC (n : Node) : Except FromClvmError EnumUntagged := do
  let (f, acc) ← curryUnwrap n
  if acc = oneAtom then do
    let s ← bytesFromClvm f
    pure (.C s)
  else .error .invalidCurryForm

/-- Modelled from the spec: untagged-enum decode attempts each variant's
decoder in declaration order, returns the first success, and surfaces the
last variant's error when all fail. -/
def EnumUntagged.fromClvm (n : Node) : Except FromClvmError EnumUntagged :=
  match (sintFromClvm 4 n).map EnumUntagged.A with
  | .ok v => .ok v
  | .error _ =>
    match EnumUntagged.decodeB n with
    | .ok v => .ok v
    | .error _ => EnumUntagged.decodeC n

/-! ## The wallet `Proof` client (`chia-wallet/src/proof.rs`) -/

/-- `LineageProof`: three fields under `List` framing. -/
structure LineageProof where
  parent_coin_info : List Nat
  inner_puzzle_hash : List Nat
  amount : Nat
deriving DecidableEq, Repr

/-- `EveProof`: two fields under `List` framing. -/
structure EveProof where
  parent_coin_info : List Nat
  amount : Nat
deriving DecidableEq, Repr

/-- `Proof`: untagged union of the two proof shapes. -/
inductive Proof where
  | lineage : LineageProof → Proof
  | eve : EveProof → Proof
deriving DecidableEq, Repr

/-- `LineageProof` encode: `List` framing over `[u8;32]`, `[u8;32]`, `u64`,
per its derive attributes. -/
def LineageProof.toClvm (v : LineageProof) : Except ToClvmError Node := do
  let f₁ ← bytesNToClvm v.parent_coin_info
  let f₂ ← bytesNToClvm v.inner_puzzle_hash
  let f₃ ← uintToClvm 8 v.amount
  pure (.pair f₁ (.pair f₂ (.pair f₃ nilNode)))

/-- `LineageProof` decode: peels three pairs, decodes `[u8;32]`, `[u8;32]`,
`u64`, and requires the nil terminator. -/
def LineageProof.fromClvm : Node → Except FromClvmError LineageProof
  | .pair f₁ rest₁ => do
    let pci ← bytesNFromClvm 32 f₁
    match rest₁ with
    | .pair f₂ rest₂ => do
      let iph ← bytesNFromClvm 32 f₂
      match rest₂ with
      | .pair f₃ rest₃ => do
        let amt ← uintFromClvm 8 f₃
        if rest₃ = nilNode then pure ⟨pci, iph, amt⟩ else .error .expectedNil
      | .atom _ => .error .expectedPair
    | .atom _ => .error .expectedPair
  | .atom _ => .error .expectedPair

/-- `EveProof` encode: `List` framing over `[u8;32]`, `u64`. -/
def EveProof.toClvm (v : EveProof) : Except ToClvmError Node := do
  let f₁ ← bytesNToClvm v.parent_coin_info
  let f₂ ← uintToClvm 8 v.amount
  pure (.pair f₁ (.pair f₂ nilNode))

/-- `EveProof` decode: peels two pairs, decodes `[u8;32]`, `u64`, and
requires the nil terminator. -/
def EveProof.fromClvm : Node → Except FromClvmError EveProof
  | .pair f₁ rest₁ => do
    let pci ← bytesNFromClvm 32 f₁
    match rest₁ with
    | .pair f₂ rest₂ => do
      let amt ← uintFromClvm 8 f₂
      if rest₂ = nilNode then pure ⟨pci, amt⟩ else .error .expectedNil
    | .atom _ => .error .expectedPair
  | .atom _ => .error .expectedPair

/-- `Proof::from_clvm` as written in `proof.rs`: try `LineageProof` first,
`or_else` fall back to `EveProof` (whose error is the one surfaced). -/
def Proof.fromClvm (n : Node) : Except FromClvmError Proof :=
  match (LineageProof.fromClvm n).map Proof.lineage with
  | .ok v => .ok v
  | .error _ => (EveProof.fromClvm n).map Proof.eve

/-- `Proof::to_clvm` as written in `proof.rs`: each variant encodes as its
payload. -/
def Proof.toClvm : Proof → Except ToClvmError Node
  | .lineage lp => lp.toClvm
  | .eve ep => ep.toClvm

/-- Round-trip property of an encoder/decoder pair at a value. -/
def RoundTrips (enc : α → Except ToClvmError Node)
    (dec : Node → Except FromClvmError α) (v : α) : Prop :=
  ∃ nd, enc v = .ok nd ∧ dec nd = .ok v

@[simp] theorem exceptPure_eq_ok (a : α) : (pure a : Except ε α) = .ok a := rfl

/-! ## Round-trip lemmas -/

theorem bool_roundtrip (b : Bool) : RoundTrips boolToClvm boolFromClvm b := by
  cases b with
  | false => exact ⟨nilNode, rfl, by decide⟩
  | true => exact ⟨.atom [1], rfl, by decide⟩

theorem bytes_roundtrip (bs : List Nat) : RoundTrips bytesToClvm bytesFromClvm bs :=
  ⟨.atom bs, rfl, rfl⟩

theorem bytesN_roundtrip (k : Nat) (bs : List Nat) (h : bs.length = k) :
    RoundTrips bytesNToClvm (bytesNFromClvm k) bs := by
  refine ⟨.atom bs, rfl, ?_⟩
  simp [bytesNFromClvm, h]

theorem uint_roundtrip (w n : Nat) (hw : 0 < w) (hn : n < 2 ^ (8 * w)) :
    RoundTrips (uintToClvm w) (uintFromClvm w) n :=
  ⟨.atom (uintBytes w n), rfl, uintFromClvm_uintBytes w n hw hn⟩

theorem sint_roundtrip (w : Nat) (m : Int) (hw : 0 < w)
    (h1 : -(2 ^ (8 * w - 1)) ≤ m) (h2 : m < 2 ^ (8 * w - 1)) :
    RoundTrips (sintToClvm w) (sintFromClvm w) m :=
  ⟨.atom (sintBytes w m), rfl, sintFromClvm_sintBytes w m hw h1 h2⟩

theorem seq_roundtrip (enc : α → Except ToClvmError Node)
    (dec : Node → Except FromClvmError α) (l : List α)
    (h : ∀ x ∈ l, RoundTrips enc dec x) :
    RoundTrips (seqToClvm enc) (seqFromClvm dec) l := by
  induction l with
  | nil => exact ⟨nilNode, rfl, by simp [seqFromClvm, nilNode]⟩
  | cons x xs ih =>
    obtain ⟨ndx, hex, hdx⟩ := h x (by simp)
    obtain ⟨nds, hes, hds⟩ := ih (fun y hy => h y (by simp [hy]))
    refine ⟨.pair ndx nds, ?_, ?_⟩
    · simp only [seqToClvm, hex, hes, exceptBind_ok, exceptPure_eq_ok]
    · simp only [seqFromClvm, hdx, hds, exceptBind_ok, exceptPure_eq_ok]

theorem option_none_roundtrip (enc : α → Except ToClvmError Node)
    (dec : Node → Except FromClvmError α) :
    RoundTrips (optionToClvm enc) (optionFromClvm dec) (none : Option α) :=
  ⟨nilNode, rfl, by simp [optionFromClvm]⟩

theorem option_some_roundtrip (enc : α → Except ToClvmError Node)
    (dec : Node → Except FromClvmError α) (v : α) (nd : Node)
    (he : enc v = .ok nd) (hd : dec nd = .ok v) (hnil : nd ≠ nilNode) :
    RoundTrips (optionToClvm enc) (optionFromClvm dec) (some v) := by
  refine ⟨nd, he, ?_⟩
  simp [optionFromClvm, hnil, hd, Except.map]

/-- A nonzero in-range unsigned value never encodes to the nil atom. -/
theorem uintBytes_ne_nil (w n : Nat) (hw : 0 < w) (hn : n < 2 ^ (8 * w)) (h0 : n ≠ 0) :
    Node.atom (uintBytes w n) ≠ nilNode := by
  intro hc
  have hrt := uintFromClvm_uintBytes w n hw hn
  have hnil : uintBytes w n = [] := by
    simpa [nilNode] using hc
  rw [hnil] at hrt
  have hdec : uintFromClvm w (.atom []) = .ok 0 := by
    simp [uintFromClvm, tcValue, beNat, Int.zero_emod]
  rw [hdec] at hrt
  exact h0 (Except.ok.inj hrt).symm

theorem tupleStruct_roundtrip (a : Nat) (b : Int) (ha : a < 2 ^ 64)
    (hb1 : -(2 ^ 31) ≤ b) (hb2 : b < 2 ^ 31) :
    RoundTrips TupleStruct.toClvm TupleStruct.fromClvm ⟨a, b⟩ := by
  refine ⟨.pair (.atom (uintBytes 8 a)) (.atom (sintBytes 4 b)), rfl, ?_⟩
  simp only [TupleStruct.fromClvm,
    uintFromClvm_uintBytes 8 a (by norm_num) (by norm_num; exact ha),
    sintFromClvm_sintBytes 4 b (by norm_num) (by norm_num; exact hb1) (by norm_num; exact hb2),
    exceptBind_ok, exceptPure_eq_ok]

theorem listStruct_roundtrip (a : Nat) (b : Int) (ha : a < 2 ^ 64)
    (hb1 : -(2 ^ 31) ≤ b) (hb2 : b < 2 ^ 31) :
    RoundTrips ListStruct.toClvm ListStruct.fromClvm ⟨a, b⟩ := by
  refine ⟨.pair (.atom (uintBytes 8 a)) (.pair (.atom (sintBytes 4 b)) nilNode), rfl, ?_⟩
  simp only [ListStruct.fromClvm,
    uintFromClvm_uintBytes 8 a (by norm_num) (by norm_num; exact ha),
    sintFromClvm_sintBytes 4 b (by norm_num) (by norm_num; exact hb1) (by norm_num; exact hb2),
    exceptBind_ok, exceptPure_eq_ok, if_pos rfl, if_true]

theorem curryUnwrap_curryWrap (f acc : Node) : curryUnwrap (curryWrap f acc) = .ok (f, acc) := by
  simp [curryUnwrap, curryWrap, nilNode]

theorem curryStruct_roundtrip (a : Nat) (b : Int) (ha : a < 2 ^ 64)
    (hb1 : -(2 ^ 31) ≤ b) (hb2 : b < 2 ^ 31) :
    RoundTrips CurryStruct.toClvm CurryStruct.fromClvm ⟨a, b⟩ := by
  refine ⟨curryWrap (.atom (uintBytes 8 a)) (curryWrap (.atom (sintBytes 4 b)) oneAtom),
    rfl, ?_⟩
  simp only [CurryStruct.fromClvm, curryUnwrap_curryWrap, exceptBind_ok, if_pos rfl, if_true,
    uintFromClvm_uintBytes 8 a (by norm_num) (by norm_num; exact ha),
    sintFromClvm_sintBytes 4 b (by norm_num) (by norm_num; exact hb1) (by norm_num; exact hb2),
    exceptPure_eq_ok]

theorem enumDefault_fromClvm_A (p : Node) (x : Int) (hp : sintFromClvm 4 p = .ok x) :
    EnumDefault.fromClvm (.pair (.atom []) p) = .ok (.A x) := by
  have h0 : uintFromClvm 1 (.atom []) = .ok 0 := by decide
  simp only [EnumDefault.fromClvm, h0, exceptBind_ok, if_pos rfl, if_true, hp,
    exceptPure_eq_ok]

theorem enumDefault_fromClvm_B (p : Node) (x : Int) (hp : sintFromClvm 4 p = .ok x) :
    EnumDefault.fromClvm (.pair (.atom [1]) p) = .ok (.B x) := by
  have h1 : uintFromClvm 1 (.atom [1]) = .ok 1 := by decide
  simp only [EnumDefault.fromClvm, h1, exceptBind_ok, hp, exceptPure_eq_ok]
  norm_num

theorem enumDefault_A_roundtrip (x : Int) (h1 : -(2 ^ 31) ≤ x) (h2 : x < 2 ^ 31) :
    RoundTrips EnumDefault.toClvm EnumDefault.fromClvm (.A x) :=
  ⟨.pair (.atom []) (.atom (sintBytes 4 x)), rfl,
    enumDefault_fromClvm_A _ x
      (sintFromClvm_sintBytes 4 x (by norm_num) (by norm_num; exact h1) (by norm_num; exact h2))⟩

theorem enumDefault_B_roundtrip (x : Int) (h1 : -(2 ^ 31) ≤ x) (h2 : x < 2 ^ 31) :
    RoundTrips EnumDefault.toClvm EnumDefault.fromClvm (.B x) :=
  ⟨.pair (.atom [1]) (.atom (sintBytes 4 x)), rfl,
    enumDefault_fromClvm_B _ x
      (sintFromClvm_sintBytes 4 x (by norm_num) (by norm_num; exact h1) (by norm_num; exact h2))⟩

theorem enumDefault_C_roundtrip : RoundTrips EnumDefault.toClvm EnumDefault.fromClvm .C :=
  ⟨.pair (.atom [2]) nilNode, rfl, by decide⟩

theorem enumExplicit_fromClvm_A (p : Node) (x : Int) (hp : sintFromClvm 4 p = .ok x) :
    EnumExplicit.fromClvm (.pair (.atom [42]) p) = .ok (.A x) := by
  have h42 : uintFromClvm 1 (.atom [42]) = .ok 42 := by decide
  simp only [EnumExplicit.fromClvm, h42, exceptBind_ok, if_pos rfl, if_true, hp,
    exceptPure_eq_ok]

theorem enumExplicit_fromClvm_B (p : Node) (x : Int) (hp : sintFromClvm 4 p = .ok x) :
    EnumExplicit.fromClvm (.pair (.atom [34]) p) = .ok (.B x) := by
  have h34 : uintFromClvm 1 (.atom [34]) = .ok 34 := by decide
  simp only [EnumExplicit.fromClvm, h34, exceptBind_ok, hp, exceptPure_eq_ok]
  norm_num

theorem enumExplicit_A_roundtrip (x : Int) (h1 : -(2 ^ 31) ≤ x) (h2 : x < 2 ^ 31) :
    RoundTrips EnumExplicit.toClvm EnumExplicit.fromClvm (.A x) :=
  ⟨.pair (.atom [42]) (.atom (sintBytes 4 x)), rfl,
    enumExplicit_fromClvm_A _ x
      (sintFromClvm_sintBytes 4 x (by norm_num) (by norm_num; exact h1) (by norm_num; exact h2))⟩

theorem enumExplicit_B_roundtrip (x : Int) (h1 : -(2 ^ 31) ≤ x) (h2 : x < 2 ^ 31) :
    RoundTrips EnumExplicit.toClvm EnumExplicit.fromClvm (.B x) :=
  ⟨.pair (.atom [34]) (.atom (sintBytes 4 x)), rfl,
    enumExplicit_fromClvm_B _ x
      (sintFromClvm_sintBytes 4 x (by norm_num) (by norm_num; exact h1) (by norm_num; exact h2))⟩

theorem enumExplicit_C_roundtrip : RoundTrips EnumExplicit.toClvm EnumExplicit.fromClvm .C :=
  ⟨.pair (.atom [11]) nilNode, rfl, by decide⟩

theorem enumUntagged_A_roundtrip (x : Int) (h1 : -(2 ^ 31) ≤ x) (h2 : x < 2 ^ 31) :
    RoundTrips EnumUntagged.toClvm EnumUntagged.fromClvm (.A x) := by
  refine ⟨.atom (sintBytes 4 x), rfl, ?_⟩
  have hs := sintFromClvm_sintBytes 4 x (by norm_num) (by norm_num; exact h1)
    (by norm_num; exact h2)
  simp only [EnumUntagged.fromClvm, hs, Except.map]

theorem enumUntagged_B_roundtrip (x y : Int)
    (hx1 : -(2 ^ 31) ≤ x) (hx2 : x < 2 ^ 31) (hy1 : -(2 ^ 31) ≤ y) (hy2 : y < 2 ^ 31) :
    RoundTrips EnumUntagged.toClvm EnumUntagged.fromClvm (.B x y) := by
  refine ⟨.pair (.atom (sintBytes 4 x)) (.pair (.atom (sintBytes 4 y)) nilNode), rfl, ?_⟩
  have hx := sintFromClvm_sintBytes 4 x (by norm_num) (by norm_num; exact hx1)
    (by norm_num; exact hx2)
  have hy := sintFromClvm_sintBytes 4 y (by norm_num) (by norm_num; exact hy1)
    (by norm_num; exact hy2)
  have hB : EnumUntagged.decodeB
      (.pair (.atom (sintBytes 4 x)) (.pair (.atom (sintBytes 4 y)) nilNode)) =
      .ok (.B x y) := by
    simp only [EnumUntagged.decodeB, hx, hy, exceptBind_ok, exceptPure_eq_ok, if_pos rfl,
      if_true]
  simp only [EnumUntagged.fromClvm, Except.map, hB]
  rfl

theorem enumUntagged_decodeB_curry (s : List Nat) :
    EnumUntagged.decodeB (curryWrap (.atom s) oneAtom) = .error .expectedAtom := rfl

theorem enumUntagged_decodeC_curry (s : List Nat) :
    EnumUntagged.decodeC (curryWrap (.atom s) oneAtom) = .ok (.C s) := rfl

theorem enumUntagged_C_roundtrip (s : List Nat) :
    RoundTrips EnumUntagged.toClvm EnumUntagged.fromClvm (.C s) := by
  refine ⟨curryWrap (.atom s) oneAtom, rfl, ?_⟩
  simp only [EnumUntagged.fromClvm, Except.map, enumUntagged_decodeB_curry,
    enumUntagged_decodeC_curry]
  rfl

theorem uintFromClvm_ok_inv (w : Nat) (n : Node) (v : Nat) (h : uintFromClvm w n = .ok v) :
    ∃ bs, n = .atom bs ∧ bs.length ≤ w := by
  cases n with
  | atom bs =>
    by_cases hl : bs.length ≤ w
    · exact ⟨bs, rfl, hl⟩
    · simp [uintFromClvm, hl] at h
  | pair a b => simp [uintFromClvm] at h

theorem lineageProof_fromClvm_ok (pci iph : List Nat) (hp : pci.length = 32)
    (hi : iph.length = 32) (amtNode : Node) (amt : Nat)
    (ha : uintFromClvm 8 amtNode = .ok amt) :
    LineageProof.fromClvm (.pair (.atom pci) (.pair (.atom iph) (.pair amtNode nilNode))) =
      .ok ⟨pci, iph, amt⟩ := by
  simp only [LineageProof.fromClvm, bytesNFromClvm, if_pos hp, if_pos hi, exceptBind_ok,
    ha, if_pos rfl, if_true, exceptPure_eq_ok]

theorem eveProof_fromClvm_ok (pci : List Nat) (hp : pci.length = 32) (amtNode : Node)
    (amt : Nat) (ha : uintFromClvm 8 amtNode = .ok amt) :
    EveProof.fromClvm (.pair (.atom pci) (.pair amtNode nilNode)) = .ok ⟨pci, amt⟩ := by
  simp only [EveProof.fromClvm, bytesNFromClvm, if_pos hp, exceptBind_ok, ha, if_pos rfl,
    if_true, exceptPure_eq_ok]

theorem proof_fromClvm_of_lineage_ok (n : Node) (lp : LineageProof)
    (h : LineageProof.fromClvm n = .ok lp) : Proof.fromClvm n = .ok (.lineage lp) := by
  simp only [Proof.fromClvm, h, Except.map]

theorem proof_fromClvm_of_lineage_error (n : Node) (e : FromClvmError)
    (h : LineageProof.fromClvm n = .error e) :
    Proof.fromClvm n = (EveProof.fromClvm n).map Proof.eve := by
  simp only [Proof.fromClvm, h, Except.map]

/-- A `LineageProof` decode of a two-element list whose second element is a
short atom fails (the second field must be a 32-byte atom). -/
theorem lineageProof_fails_on_eve_node (pci : List Nat) (hp : pci.length = 32)
    (bs : List Nat) (hbs : bs.length ≤ 8) :
    LineageProof.fromClvm (.pair (.atom pci) (.pair (.atom bs) nilNode)) =
      .error .wrongAtomLength := by
  have hne : ¬ bs.length = 32 := by omega
  simp only [LineageProof.fromClvm, bytesNFromClvm, if_pos hp, exceptBind_ok, if_neg hne,
    exceptBind_error]

theorem proof_lineage_roundtrip (pci iph : List Nat) (hp : pci.length = 32)
    (hi : iph.length = 32) (amt : Nat) (ha : amt < 2 ^ 64) :
    RoundTrips Proof.toClvm Proof.fromClvm (.lineage ⟨pci, iph, amt⟩) := by
  refine ⟨.pair (.atom pci) (.pair (.atom iph) (.pair (.atom (uintBytes 8 amt)) nilNode)),
    rfl, ?_⟩
  exact proof_fromClvm_of_lineage_ok _ _
    (lineageProof_fromClvm_ok pci iph hp hi _ amt
      (uintFromClvm_uintBytes 8 amt (by norm_num) (by norm_num; exact ha)))

theorem proof_eve_roundtrip (pci : List Nat) (hp : pci.length = 32)
    (amt : Nat) (ha : amt < 2 ^ 64) :
    RoundTrips Proof.toClvm Proof.fromClvm (.eve ⟨pci, amt⟩) := by
  refine ⟨.pair (.atom pci) (.pair (.atom (uintBytes 8 amt)) nilNode), rfl, ?_⟩
  rw [proof_fromClvm_of_lineage_error _ _
    (lineageProof_fails_on_eve_node pci hp _ (length_uintBytes_le 8 amt))]
  rw [eveProof_fromClvm_ok pci hp _ amt
    (uintFromClvm_uintBytes 8 amt (by norm_num) (by norm_num; exact ha))]
  rfl

theorem natToBEBytes_zero (w : Nat) : natToBEBytes w 0 = List.replicate w 0 := by
  induction w with
  | zero => rfl
  | succ v ih =>
    rw [natToBEBytes, Nat.zero_div, Nat.zero_mod, ih, ← List.replicate_succ']

theorem stripTC_replicate_zero (w : Nat) : stripTC (List.replicate w 0) = [] := by
  induction w with
  | zero => rfl
  | succ v ih =>
    cases v with
    | zero => rfl
    | succ u =>
      rw [List.replicate_succ, List.replicate_succ]
      rw [stripTC_zero_lt 0 _ (by norm_num)]
      rw [← List.replicate_succ]
      exact ih

theorem natToBEBytes_allff (w : Nat) :
    natToBEBytes w (2 ^ (8 * w) - 1) = List.replicate w 255 := by
  induction w with
  | zero => rfl
  | succ v ih =>
    have hK : 0 < 2 ^ (8 * v) := Nat.pos_pow_of_pos _ (by norm_num)
    have hexp : 2 ^ (8 * (v + 1)) = 256 * 2 ^ (8 * v) := by
      rw [show 8 * (v + 1) = 8 + 8 * v by ring, pow_add]
      norm_num
    have hdiv : (2 ^ (8 * (v + 1)) - 1) / 256 = 2 ^ (8 * v) - 1 := by omega
    have hmod : (2 ^ (8 * (v + 1)) - 1) % 256 = 255 := by omega
    rw [natToBEBytes, hdiv, hmod, ih, ← List.replicate_succ']

theorem stripTC_replicate_ff (w : Nat) (hw : 0 < w) :
    stripTC (List.replicate w 255) = [255] := by
  induction w with
  | zero => omega
  | succ v ih =>
    cases v with
    | zero => rfl
    | succ u =>
      rw [List.replicate_succ, List.replicate_succ]
      rw [stripTC_ff_ge 255 _ (by norm_num)]
      rw [← List.replicate_succ]
      exact ih (by omega)

theorem uintBytes_zero (w : Nat) : uintBytes w 0 = [] := by
  rw [uintBytes, natToBEBytes_zero, stripTC_replicate_zero]

theorem sintBytes_zero (w : Nat) : sintBytes w 0 = [] := by
  rw [sintBytes, Int.zero_emod, Int.toNat_zero, natToBEBytes_zero, stripTC_replicate_zero]

theorem sintBytes_neg_one (w : Nat) (hw : 0 < w) : sintBytes w (-1) = [255] := by
  rw [sintBytes]
  have hKpos : (0 : Int) < 2 ^ (8 * w) := by positivity
  have hmod : (-1 : Int) % 2 ^ (8 * w) = 2 ^ (8 * w) - 1 := by
    have hrw : (-1 : Int) % 2 ^ (8 * w) = (-1 + 2 ^ (8 * w)) % 2 ^ (8 * w) := by
      have := Int.add_mul_emod_self_left (a := (-1 : Int)) (b := (2 : Int) ^ (8 * w)) (c := 1)
      simpa using this.symm
    rw [hrw]
    have := Int.emod_eq_of_lt (a := -1 + 2 ^ (8 * w)) (b := 2 ^ (8 * w)) (by omega) (by omega)
    omega
  rw [hmod]
  have hcast : ((2 : Int) ^ (8 * w) - 1).toNat = 2 ^ (8 * w) - 1 := by
    have h2 : ((2 ^ (8 * w) : Nat) : Int) = (2 : Int) ^ (8 * w) := by push_cast; rfl
    omega
  rw [hcast, natToBEBytes_allff, stripTC_replicate_ff w hw]

/-- The unsigned minimal atom re-interprets (mod `2^(8*w)`) to the value. -/
theorem tcValue_uintBytes (w n : Nat) (hw : 0 < w) (hn : n < 2 ^ (8 * w)) :
    tcValue (uintBytes w n) % ((2 : Int) ^ (8 * w)) = (n : Int) := by
  have h := uintFromClvm_uintBytes w n hw hn
  have hlen := length_uintBytes_le w n
  simp only [uintFromClvm, if_pos hlen] at h
  have hok : (tcValue (uintBytes w n) % ((2 : Int) ^ (8 * w))).toNat = n := by
    simpa using h
  have hnn : 0 ≤ tcValue (uintBytes w n) % ((2 : Int) ^ (8 * w)) :=
    Int.emod_nonneg _ (by positivity)
  omega

/-- The signed minimal atom re-interprets exactly to the value. -/
theorem tcValue_sintBytes (w : Nat) (m : Int) (hw : 0 < w)
    (h1 : -(2 ^ (8 * w - 1)) ≤ m) (h2 : m < 2 ^ (8 * w - 1)) :
    tcValue (sintBytes w m) = m := by
  have h := sintFromClvm_sintBytes w m hw h1 h2
  have hlen := length_sintBytes_le w m
  simp only [sintFromClvm, if_pos hlen] at h
  simpa using h

theorem redundantHead_uintBytes (w n : Nat) : redundantHead (uintBytes w n) = false :=
  redundantHead_stripTC _

theorem redundantHead_sintBytes (w : Nat) (m : Int) :
    redundantHead (sintBytes w m) = false :=
  redundantHead_stripTC _

/-- C2: every fixed-width integer encodes as the minimal-length big-endian
two's-complement atom — re-interpreting the atom as two's complement and
widening to the original width recovers the value, and the atom never starts
with a redundant `0x00`/`0xff` sign-extension byte; `0` encodes as the empty
atom, `-1` as the single byte `0xff` (never `0xff 0xff`), `52u64` as the
one-byte atom `0x34` and `-32i32` as the one-byte atom `0xe0`. -/
theorem c2_integer_minimal_encoding
    (w : Nat) (hw : 0 < w) (n : Nat) (hn : n < 2 ^ (8 * w))
    (m : Int) (hm1 : -(2 ^ (8 * w - 1)) ≤ m) (hm2 : m < 2 ^ (8 * w - 1)) :
    (uintToClvm w n = .ok (.atom (uintBytes w n)) ∧
      tcValue (uintBytes w n) % ((2 : Int) ^ (8 * w)) = (n : Int) ∧
      redundantHead (uintBytes w n) = false) ∧
    (sintToClvm w m = .ok (.atom (sintBytes w m)) ∧
      tcValue (sintBytes w m) = m ∧
      redundantHead (sintBytes w m) = false) ∧
    uintToClvm w 0 = .ok (.atom []) ∧
    sintToClvm w 0 = .ok (.atom []) ∧
    sintToClvm w (-1) = .ok (.atom [0xff]) ∧
    sintToClvm w (-1) ≠ .ok (.atom [0xff, 0xff]) ∧
    uintToClvm 8 52 = .ok (.atom [0x34]) ∧
    sintToClvm 4 (-32) = .ok (.atom [0xe0]) := by
  refine ⟨⟨rfl, tcValue_uintBytes w n hw hn, redundantHead_uintBytes w n⟩,
    ⟨rfl, tcValue_sintBytes w m hw hm1 hm2, redundantHead_sintBytes w m⟩, ?_, ?_, ?_, ?_,
    by decide, by decide⟩
  · rw [uintToClvm, uintBytes_zero]
  · rw [sintToClvm, sintBytes_zero]
  · rw [sintToClvm, sintBytes_neg_one w hw]
  · rw [sintToClvm, sintBytes_neg_one w hw]
    intro hc
    have := Except.ok.inj hc
    simp at this

/-- Witness for C2 at `w = 4`, `n = 52`, `m = -32`. -/
theorem c2_integer_minimal_encoding_witness :
    ((0 : Nat) < 4 ∧ (52 : Nat) < 2 ^ (8 * 4) ∧
      -(2 ^ (8 * 4 - 1)) ≤ (-32 : Int) ∧ (-32 : Int) < 2 ^ (8 * 4 - 1)) ∧
    (uintToClvm 4 52 = .ok (.atom (uintBytes 4 52)) ∧
      tcValue (uintBytes 4 52) % ((2 : Int) ^ (8 * 4)) = ((52 : Nat) : Int) ∧
      redundantHead (uintBytes 4 52) = false) :=
  ⟨⟨by decide, by decide, by decide, by decide⟩,
    (c2_integer_minimal_encoding 4 (by decide) 52 (by decide) (-32) (by decide) (by decide)).1⟩

/-- C1 as stated fails on the `Optional` primitive: `Some(false)` encodes to
the nil atom (the payload's own encoding), which decodes back to `None`, not
`Some(false)`. The spec itself flags this nil-collision as an open question
(§9), yet asserts the round trip for every primitive (§8). -/
theorem c1_roundtrip_counterexample :
    optionToClvm boolToClvm (some false) = .ok nilNode ∧
    optionFromClvm boolFromClvm nilNode = .ok none ∧
    ¬ RoundTrips (optionToClvm boolToClvm) (optionFromClvm boolFromClvm) (some false) := by
  refine ⟨rfl, by decide, ?_⟩
  rintro ⟨nd, he, hd⟩
  have hnd : nd = nilNode := by
    have h := he
    simp only [optionToClvm, boolToClvm] at h
    exact (Except.ok.inj h).symm
  rw [hnd] at hd
  have : optionFromClvm boolFromClvm nilNode = .ok none := by decide
  rw [this] at hd
  exact Option.noConfusion (Except.ok.inj hd)

/-- C1 (amended): decoding after encoding yields exactly the value for every
integer, boolean, byte-string, fixed-size byte-array and sequence primitive,
for `Optional` whenever `None` or the payload's encoding is not the nil atom
(a nil-encoding payload collapses `Some` to `None`), for every struct under
`Tuple`/`List`/`Curry` framing, for tagged and untagged enums, and for the
`Proof` type. -/
theorem c1_roundtrip_amended
    (w : Nat) (hw : 0 < w) (n : Nat) (hn : n < 2 ^ (8 * w))
    (m : Int) (hm1 : -(2 ^ (8 * w - 1)) ≤ m) (hm2 : m < 2 ^ (8 * w - 1))
    (b : Bool) (bs : List Nat) (k : Nat) (hbs : bs.length = k)
    (v : Nat) (hv : v < 2 ^ 64) (hv0 : v ≠ 0)
    (l : List Nat) (hl : ∀ z ∈ l, z < 2 ^ 64)
    (a : Nat) (ha : a < 2 ^ 64) (c : Int) (hc1 : -(2 ^ 31) ≤ c) (hc2 : c < 2 ^ 31)
    (x y : Int) (hx1 : -(2 ^ 31) ≤ x) (hx2 : x < 2 ^ 31)
    (hy1 : -(2 ^ 31) ≤ y) (hy2 : y < 2 ^ 31)
    (s : List Nat)
    (pci iph : List Nat) (hp : pci.length = 32) (hi : iph.length = 32)
    (amt : Nat) (hamt : amt < 2 ^ 64) :
    RoundTrips (uintToClvm w) (uintFromClvm w) n ∧
    RoundTrips (sintToClvm w) (sintFromClvm w) m ∧
    RoundTrips boolToClvm boolFromClvm b ∧
    RoundTrips bytesToClvm bytesFromClvm bs ∧
    RoundTrips bytesNToClvm (bytesNFromClvm k) bs ∧
    RoundTrips (optionToClvm (uintToClvm 8)) (optionFromClvm (uintFromClvm 8)) none ∧
    RoundTrips (optionToClvm (uintToClvm 8)) (optionFromClvm (uintFromClvm 8)) (some v) ∧
    RoundTrips (seqToClvm (uintToClvm 8)) (seqFromClvm (uintFromClvm 8)) l ∧
    RoundTrips TupleStruct.toClvm TupleStruct.fromClvm ⟨a, c⟩ ∧
    RoundTrips ListStruct.toClvm ListStruct.fromClvm ⟨a, c⟩ ∧
    RoundTrips CurryStruct.toClvm CurryStruct.fromClvm ⟨a, c⟩ ∧
    RoundTrips EnumDefault.toClvm EnumDefault.fromClvm (.A x) ∧
    RoundTrips EnumDefault.toClvm EnumDefault.fromClvm (.B x) ∧
    RoundTrips EnumDefault.toClvm EnumDefault.fromClvm .C ∧
    RoundTrips EnumExplicit.toClvm EnumExplicit.fromClvm (.A x) ∧
    RoundTrips EnumExplicit.toClvm EnumExplicit.fromClvm (.B x) ∧
    RoundTrips EnumExplicit.toClvm EnumExplicit.fromClvm .C ∧
    RoundTrips EnumUntagged.toClvm EnumUntagged.fromClvm (.A x) ∧
    RoundTrips EnumUntagged.toClvm EnumUntagged.fromClvm (.B x y) ∧
    RoundTrips EnumUntagged.toClvm EnumUntagged.fromClvm (.C s) ∧
    RoundTrips Proof.toClvm Proof.fromClvm (.lineage ⟨pci, iph, amt⟩) ∧
    RoundTrips Proof.toClvm Proof.fromClvm (.eve ⟨pci, amt⟩) :=
  ⟨uint_roundtrip w n hw hn,
   sint_roundtrip w m hw hm1 hm2,
   bool_roundtrip b,
   bytes_roundtrip bs,
   bytesN_roundtrip k bs hbs,
   option_none_roundtrip _ _,
   option_some_roundtrip _ _ v (.atom (uintBytes 8 v)) rfl
     (uintFromClvm_uintBytes 8 v (by norm_num) (by norm_num; exact hv))
     (uintBytes_ne_nil 8 v (by norm_num) (by norm_num; exact hv) hv0),
   seq_roundtrip _ _ l
     (fun z hz => uint_roundtrip 8 z (by norm_num) (by norm_num; exact hl z hz)),
   tupleStruct_roundtrip a c ha hc1 hc2,
   listStruct_roundtrip a c ha hc1 hc2,
   curryStruct_roundtrip a c ha hc1 hc2,
   enumDefault_A_roundtrip x hx1 hx2,
   enumDefault_B_roundtrip x hx1 hx2,
   enumDefault_C_roundtrip,
   enumExplicit_A_roundtrip x hx1 hx2,
   enumExplicit_B_roundtrip x hx1 hx2,
   enumExplicit_C_roundtrip,
   enumUntagged_A_roundtrip x hx1 hx2,
   enumUntagged_B_roundtrip x y hx1 hx2 hy1 hy2,
   enumUntagged_C_roundtrip s,
   proof_lineage_roundtrip pci iph hp hi amt hamt,
   proof_eve_roundtrip pci hp amt hamt⟩

/-- Witness for the amended C1 at concrete values. -/
theorem c1_roundtrip_amended_witness :
    RoundTrips (uintToClvm 1) (uintFromClvm 1) 7 ∧
    RoundTrips (sintToClvm 1) (sintFromClvm 1) (-3) := by
  have h := c1_roundtrip_amended 1 (by decide) 7 (by decide) (-3) (by decide) (by decide)
    true [1, 2] 2 (by decide) 9 (by decide) (by decide) [3] (by decide)
    52 (by decide) (-32) (by decide) (by decide)
    32 94 (by decide) (by decide) (by decide) (by decide) [72]
    (List.replicate 32 0) (List.replicate 32 1) (by decide) (by decide) 5 (by decide)
  exact ⟨h.1, h.2.1⟩

/-- C3: the two-field struct `{a: u64 = 52, b: i32 = -32}` under `List`
framing encodes to the node `(52 . (-32 . nil))` serializing to hex
`ff34ff81e080`, and under `Tuple` framing to `(52 . -32)` serializing to hex
`ff3481e0` — the same pairing without the trailing nil terminator. -/
theorem c3_byte_exact_framing :
    TupleStruct.toClvm ⟨52, -32⟩ = .ok (.pair (.atom [0x34]) (.atom [0xe0])) ∧
    (TupleStruct.toClvm ⟨52, -32⟩).map nodeToBytes = .ok [0xff, 0x34, 0x81, 0xe0] ∧
    ListStruct.toClvm ⟨52, -32⟩ =
      .ok (.pair (.atom [0x34]) (.pair (.atom [0xe0]) nilNode)) ∧
    (ListStruct.toClvm ⟨52, -32⟩).map nodeToBytes =
      .ok [0xff, 0x34, 0xff, 0x81, 0xe0, 0x80] := by
  refine ⟨by decide, by decide, by decide, by decide⟩

/-- C4 as stated is self-contradictory: the per-field wrapping it gives,
`pair(cons_op_atom, pair(pair(quote_op_atom, pair(fi, NIL)), pair(acc, NIL)))`
(the quoted field as a proper list), does not serialize to the hex it also
asserts — the golden bytes (and the repository's own doc comment
`(c (q . A) ...)`) require the quoted field to be the raw pair
`(quote . field)`. At `{a: 52, b: -32}` the claimed shape serializes to
`ff04ffff01ff3480ffff04ffff01ff81e080ff018080`, not
`ff04ffff0134ffff04ffff0181e0ff018080`, and it is not the node the encoder
produces. -/
theorem c4_curry_counterexample :
    CurryStruct.toClvm ⟨52, -32⟩ ≠
      .ok (curryWrapSpecWords (.atom [0x34]) (curryWrapSpecWords (.atom [0xe0]) oneAtom)) ∧
    nodeToBytes (curryWrapSpecWords (.atom [0x34])
        (curryWrapSpecWords (.atom [0xe0]) oneAtom)) ≠
      [0xff, 0x04, 0xff, 0xff, 0x01, 0x34, 0xff, 0xff, 0x04, 0xff, 0xff, 0x01, 0x81, 0xe0,
       0xff, 0x01, 0x80, 0x80] := by
  refine ⟨by decide, by decide⟩

/-- C4 (amended): `Curry` framing builds right-to-left from the atom `1`,
wrapping each field as `pair(cons_op_atom, pair(pair(quote_op_atom, fi),
pair(acc, NIL)))` — the quoted field is the raw pair `(quote . fi)` — so
`{a: 52, b: -32}` serializes to hex `ff04ffff0134ffff04ffff0181e0ff018080`;
decoding inverts exactly this nested shape, terminating on the atom `1` and
failing `InvalidCurryForm` on structural deviation. -/
theorem c4_curry_framing (f acc : Node) :
    curryWrap f acc = .pair cAtom (.pair (.pair qAtom f) (.pair acc nilNode)) ∧
    CurryStruct.toClvm ⟨52, -32⟩ =
      .ok (curryWrap (.atom [0x34]) (curryWrap (.atom [0xe0]) oneAtom)) ∧
    (CurryStruct.toClvm ⟨52, -32⟩).map nodeToBytes =
      .ok [0xff, 0x04, 0xff, 0xff, 0x01, 0x34, 0xff, 0xff, 0x04, 0xff, 0xff, 0x01, 0x81,
        0xe0, 0xff, 0x01, 0x80, 0x80] ∧
    curryUnwrap (curryWrap f acc) = .ok (f, acc) ∧
    CurryStruct.fromClvm (curryWrap (.atom [0x34]) (curryWrap (.atom [0xe0]) oneAtom)) =
      .ok ⟨52, -32⟩ ∧
    CurryStruct.fromClvm (curryWrap (.atom [0x34]) (curryWrap (.atom [0xe0]) (.atom [2]))) =
      .error .invalidCurryForm ∧
    CurryStruct.fromClvm (.pair (.atom [5]) (.pair (.pair qAtom (.atom [0x34]))
        (.pair (curryWrap (.atom [0xe0]) oneAtom) nilNode))) =
      .error .invalidCurryForm := by
  exact ⟨rfl, by decide, by decide, curryUnwrap_curryWrap f acc, by decide, by decide,
    by decide⟩

/-- C5: `Proof` decode tries `LineageProof` then `EveProof`: a proper
three-field list whose fields decode as 32-byte atom, 32-byte atom and `u64`
decodes as `Lineage`; a proper two-field list of a 32-byte atom and a `u64`
decodes as `Eve`; and when both variant decoders fail, the decode fails with
the last variant's (`EveProof`'s) error. -/
theorem c5_proof_trial_order (pci iph : List Nat) (hp : pci.length = 32)
    (hi : iph.length = 32) (amtNode : Node) (amt : Nat)
    (ha : uintFromClvm 8 amtNode = .ok amt)
    (n : Node) (e₁ e₂ : FromClvmError)
    (hl : LineageProof.fromClvm n = .error e₁) (he : EveProof.fromClvm n = .error e₂) :
    Proof.fromClvm (.pair (.atom pci) (.pair (.atom iph) (.pair amtNode nilNode))) =
      .ok (.lineage ⟨pci, iph, amt⟩) ∧
    Proof.fromClvm (.pair (.atom pci) (.pair amtNode nilNode)) = .ok (.eve ⟨pci, amt⟩) ∧
    Proof.fromClvm n = .error e₂ := by
  refine ⟨?_, ?_, ?_⟩
  · exact proof_fromClvm_of_lineage_ok _ _ (lineageProof_fromClvm_ok pci iph hp hi _ amt ha)
  · obtain ⟨bs, rfl, hbs⟩ := uintFromClvm_ok_inv 8 amtNode amt ha
    rw [proof_fromClvm_of_lineage_error _ _ (lineageProof_fails_on_eve_node pci hp bs hbs)]
    rw [eveProof_fromClvm_ok pci hp _ amt ha]
    rfl
  · rw [proof_fromClvm_of_lineage_error _ _ hl, he]
    rfl

/-- Witness for C5: a lineage node, an eve node and a node (`nil`) on which
both variant decoders fail with `ExpectedPair`. -/
theorem c5_proof_trial_order_witness :
    Proof.fromClvm (.pair (.atom (List.replicate 32 0))
        (.pair (.atom (List.replicate 32 1)) (.pair (.atom [5]) nilNode))) =
      .ok (.lineage ⟨List.replicate 32 0, List.replicate 32 1, 5⟩) ∧
    Proof.fromClvm (.pair (.atom (List.replicate 32 0)) (.pair (.atom [5]) nilNode)) =
      .ok (.eve ⟨List.replicate 32 0, 5⟩) ∧
    Proof.fromClvm nilNode = .error .expectedPair :=
  c5_proof_trial_order (List.replicate 32 0) (List.replicate 32 1) (by decide) (by decide)
    (.atom [5]) 5 (by decide) nilNode .expectedPair .expectedPair (by decide) (by decide)

/-- C6: a tagged enum encodes as `pair(discriminant_atom, variant_payload)`
with a zero-field variant's payload nil; default discriminants are 0-based
sequential (`u8`) in declaration order, and explicit values (42, 34, 11)
replace the defaults in both encode and decode. -/
theorem c6_tagged_enum_discriminants (x : Int) (p : Node)
    (hx1 : -(2 ^ 31) ≤ x) (hx2 : x < 2 ^ 31) (hp : sintFromClvm 4 p = .ok x) :
    EnumDefault.toClvm (.A x) =
      .ok (.pair (.atom (uintBytes 1 0)) (.atom (sintBytes 4 x))) ∧
    EnumDefault.toClvm (.B x) =
      .ok (.pair (.atom (uintBytes 1 1)) (.atom (sintBytes 4 x))) ∧
    EnumDefault.toClvm .C = .ok (.pair (.atom (uintBytes 1 2)) nilNode) ∧
    uintBytes 1 0 = [] ∧ uintBytes 1 1 = [1] ∧ uintBytes 1 2 = [2] ∧
    EnumExplicit.toClvm (.A x) = .ok (.pair (.atom [42]) (.atom (sintBytes 4 x))) ∧
    EnumExplicit.toClvm (.B x) = .ok (.pair (.atom [34]) (.atom (sintBytes 4 x))) ∧
    EnumExplicit.toClvm .C = .ok (.pair (.atom [11]) nilNode) ∧
    EnumDefault.fromClvm (.pair (.atom [1]) p) = .ok (.B x) ∧
    EnumExplicit.fromClvm (.pair (.atom [34]) p) = .ok (.B x) ∧
    EnumExplicit.fromClvm (.pair (.atom [1]) p) = .error .wrongDiscriminant ∧
    RoundTrips EnumDefault.toClvm EnumDefault.fromClvm (.A x) ∧
    RoundTrips EnumExplicit.toClvm EnumExplicit.fromClvm (.A x) ∧
    RoundTrips EnumExplicit.toClvm EnumExplicit.fromClvm .C ∧
    (EnumDefault.toClvm .C).map nodeToBytes = .ok [0xff, 0x02, 0x80] ∧
    (EnumExplicit.toClvm (.A 32)).map nodeToBytes = .ok [0xff, 0x2a, 0x20] := by
  refine ⟨rfl, rfl, rfl, rfl, rfl, rfl, rfl, rfl, rfl,
    enumDefault_fromClvm_B p x hp, enumExplicit_fromClvm_B p x hp, ?_,
    enumDefault_A_roundtrip x hx1 hx2, enumExplicit_A_roundtrip x hx1 hx2,
    enumExplicit_C_roundtrip, by decide, by decide⟩
  have h1 : uintFromClvm 1 (.atom [1]) = .ok 1 := by decide
  simp only [EnumExplicit.fromClvm, h1, exceptBind_ok]
  norm_num

/-- Witness for C6 at `x = 5`, `p` the atom `0x05`. -/
theorem c6_tagged_enum_discriminants_witness :
    EnumDefault.fromClvm (.pair (.atom [1]) (.atom [5])) = .ok (.B 5) ∧
    EnumExplicit.fromClvm (.pair (.atom [1]) (.atom [5])) = .error .wrongDiscriminant := by
  have h := c6_tagged_enum_discriminants 5 (.atom [5]) (by decide) (by decide) (by decide)
  exact ⟨h.2.2.2.2.2.2.2.2.2.1, h.2.2.2.2.2.2.2.2.2.2.2.1⟩

/-- C7: encoding is total — for every value of every modelled encodable type
the encoder returns `Ok` with a node; the error branch is unreachable. -/
theorem c7_encode_total (w n : Nat) (m : Int) (b : Bool) (bs : List Nat)
    (o : Option Nat) (l : List Nat) (ts : TupleStruct) (ls : ListStruct)
    (cs : CurryStruct) (e₁ : EnumDefault) (e₂ : EnumExplicit) (e₃ : EnumUntagged)
    (pf : Proof) :
    (∃ nd, uintToClvm w n = .ok nd) ∧
    (∃ nd, sintToClvm w m = .ok nd) ∧
    (∃ nd, boolToClvm b = .ok nd) ∧
    (∃ nd, bytesToClvm bs = .ok nd) ∧
    (∃ nd, bytesNToClvm bs = .ok nd) ∧
    (∃ nd, optionToClvm (uintToClvm 8) o = .ok nd) ∧
    (∃ nd, seqToClvm (uintToClvm 8) l = .ok nd) ∧
    (∃ nd, TupleStruct.toClvm ts = .ok nd) ∧
    (∃ nd, ListStruct.toClvm ls = .ok nd) ∧
    (∃ nd, CurryStruct.toClvm cs = .ok nd) ∧
    (∃ nd, EnumDefault.toClvm e₁ = .ok nd) ∧
    (∃ nd, EnumExplicit.toClvm e₂ = .ok nd) ∧
    (∃ nd, EnumUntagged.toClvm e₃ = .ok nd) ∧
    (∃ nd, Proof.toClvm pf = .ok nd) := by
  have hseq : ∀ l' : List Nat, ∃ nd, seqToClvm (uintToClvm 8) l' = .ok nd := by
    intro l'
    induction l' with
    | nil => exact ⟨nilNode, rfl⟩
    | cons z zs ih =>
      obtain ⟨nd, hnd⟩ := ih
      exact ⟨.pair (.atom (uintBytes 8 z)) nd, by
        simp only [seqToClvm, uintToClvm, exceptBind_ok, hnd, exceptPure_eq_ok]⟩
  refine ⟨⟨_, rfl⟩, ⟨_, rfl⟩, ?_, ⟨_, rfl⟩, ⟨_, rfl⟩, ?_, hseq l, ⟨_, rfl⟩, ⟨_, rfl⟩,
    ⟨_, rfl⟩, ?_, ?_, ?_, ?_⟩
  · cases b with
    | false => exact ⟨nilNode, rfl⟩
    | true => exact ⟨.atom [1], rfl⟩
  · cases o with
    | none => exact ⟨nilNode, rfl⟩
    | some v => exact ⟨.atom (uintBytes 8 v), rfl⟩
  · cases e₁ with
    | A x => exact ⟨_, rfl⟩
    | B x => exact ⟨_, rfl⟩
    | C => exact ⟨_, rfl⟩
  · cases e₂ with
    | A x => exact ⟨_, rfl⟩
    | B x => exact ⟨_, rfl⟩
    | C => exact ⟨_, rfl⟩
  · cases e₃ with
    | A x => exact ⟨_, rfl⟩
    | B x y => exact ⟨_, rfl⟩
    | C s => exact ⟨_, rfl⟩
  · cases pf with
    | lineage lp => exact ⟨_, rfl⟩
    | eve ep => exact ⟨_, rfl⟩

/-- C8: the boolean codec encodes `true` as the atom `0x01` and `false` as
the nil atom; decode succeeds only on exactly these two atoms, yielding a
`Custom` error for every other node, pairs and the atom `0x00` included. -/
theorem c8_bool_codec (n : Node) (h1 : n ≠ nilNode) (h2 : n ≠ Node.atom [1]) :
    boolToClvm true = .ok (.atom [1]) ∧
    boolToClvm false = .ok nilNode ∧
    boolFromClvm nilNode = .ok false ∧
    boolFromClvm (.atom [1]) = .ok true ∧
    boolFromClvm n = .error (.custom "expected boolean") ∧
    boolFromClvm (.atom [0]) = .error (.custom "expected boolean") ∧
    boolFromClvm (.pair nilNode nilNode) = .error (.custom "expected boolean") := by
  refine ⟨rfl, rfl, by decide, by decide, ?_, by decide, by decide⟩
  simp [boolFromClvm, h1, h2]

/-- Witness for C8 at the atom `0x02`. -/
theorem c8_bool_codec_witness :
    boolFromClvm (.atom [2]) = .error (.custom "expected boolean") :=
  (c8_bool_codec (.atom [2]) (by decide) (by decide)).2.2.2.2.1

/-- C9: decoding a node as a fixed-size byte array of declared size `N`
succeeds exactly when the node is an atom of length `N`, and fails with
`WrongAtomLength` otherwise; in particular a 33-byte atom decoded as the
32-byte array type of `Proof`'s hash fields fails with `WrongAtomLength`,
and so does a `LineageProof` whose first field is a 33-byte atom. -/
theorem c9_fixed_array_exact_length (k : Nat) (bs cs : List Nat) (m a b rest : Node)
    (hlen : cs.length ≠ k) :
    (bytesNFromClvm k m = .ok bs ↔ m = .atom bs ∧ bs.length = k) ∧
    bytesNFromClvm k (.atom cs) = .error .wrongAtomLength ∧
    bytesNFromClvm k (.pair a b) = .error .wrongAtomLength ∧
    bytesNFromClvm 32 (.atom (List.replicate 33 0)) = .error .wrongAtomLength ∧
    LineageProof.fromClvm (.pair (.atom (List.replicate 33 0)) rest) =
      .error .wrongAtomLength := by
  refine ⟨?_, by simp [bytesNFromClvm, hlen], rfl, by decide, ?_⟩
  · cases m with
    | atom ds =>
      by_cases hd : ds.length = k
      · simp only [bytesNFromClvm, if_pos hd]
        constructor
        · intro h
          have hds : ds = bs := Except.ok.inj h
          subst hds
          exact ⟨rfl, hd⟩
        · rintro ⟨hnode, _⟩
          have : ds = bs := Node.atom.inj hnode
          rw [this]
      · simp only [bytesNFromClvm, if_neg hd]
        constructor
        · intro h
          exact absurd h (by simp)
        · rintro ⟨hnode, hbs⟩
          have : ds = bs := Node.atom.inj hnode
          rw [this] at hd
          exact absurd hbs hd
    | pair a' b' =>
      simp only [bytesNFromClvm]
      constructor
      · intro h
        exact absurd h (by simp)
      · rintro ⟨hnode, _⟩
        exact Node.noConfusion hnode
  · have h33 : ¬ (List.replicate 33 (0 : Nat)).length = 32 := by decide
    simp only [LineageProof.fromClvm, bytesNFromClvm, if_neg h33, exceptBind_error]

/-- Witness for C9 at `k = 32` with a 31-byte atom. -/
theorem c9_fixed_array_exact_length_witness :
    bytesNFromClvm 32 (.atom (List.replicate 31 0)) = .error .wrongAtomLength :=
  (c9_fixed_array_exact_length 32 [] (List.replicate 31 0) nilNode nilNode nilNode nilNode
    (by decide)).2.1

/-- C10: with default discriminants the first variant's discriminant 0
encodes (minimally) as the empty atom, so `Enum::A(32)` encodes as
`pair(nil, payload)` and serializes to `ff8020`, `0x80` being the serialized
empty atom; decode maps the empty discriminant atom back to 0, selecting the
first variant. -/
theorem c10_zero_discriminant_nil_atom (p : Node) (x : Int)
    (hp : sintFromClvm 4 p = .ok x) :
    uintBytes 1 0 = [] ∧
    EnumDefault.toClvm (.A 32) = .ok (.pair (.atom []) (.atom [0x20])) ∧
    nodeToBytes (.pair (.atom []) (.atom [0x20])) = [0xff, 0x80, 0x20] ∧
    nodeToBytes nilNode = [0x80] ∧
    uintFromClvm 1 (.atom []) = .ok 0 ∧
    EnumDefault.fromClvm (.pair (.atom []) p) = .ok (.A x) ∧
    EnumDefault.fromClvm (.pair (.atom []) (.atom [0x20])) = .ok (.A 32) := by
  exact ⟨rfl, by decide, by decide, by decide, by decide,
    enumDefault_fromClvm_A p x hp, by decide⟩

/-- Witness for C10 at `p` the atom `0x05`. -/
theorem c10_zero_discriminant_nil_atom_witness :
    EnumDefault.fromClvm (.pair (.atom []) (.atom [5])) = .ok (.A 5) :=
  (c10_zero_discriminant_nil_atom (.atom [5]) 5 (by decide)).2.2.2.2.2.1

/-- Witness for the amended C4 at concrete nodes. -/
theorem c4_curry_framing_witness :
    curryUnwrap (curryWrap nilNode oneAtom) = .ok (nilNode, oneAtom) :=
  (c4_curry_framing nilNode oneAtom).2.2.2.1

/-- Witness for C7 at concrete values. -/
theorem c7_encode_total_witness :
    ∃ nd, Proof.toClvm (.eve ⟨List.replicate 32 0, 5⟩) = .ok nd :=
  (c7_encode_total 1 0 0 false [] none [] ⟨0, 0⟩ ⟨0, 0⟩ ⟨0, 0⟩ .C .C (.A 0)
    (.eve ⟨List.replicate 32 0, 5⟩)).2.2.2.2.2.2.2.2.2.2.2.2.2
